import Mathlib

/-!
Verification of the command-terminal widget of the Portfolio repository.

The terminal script wires a keydown listener on the input field: on Enter it
normalizes the typed value (`value.toLowerCase().trim()`), calls
`executeCommand` on the normalized string, and resets the field to the empty
string.  `executeCommand` always appends an echoed history line first, then
returns early on empty input, wipes the whole history on `clear`, and
otherwise appends one output line: the command table's value on a hit, a
"Command not found" message on a miss.

The embedding below models the transcript as a list of entries, the command
table as an association list, the property access `commands[cmd]` including
the properties inherited from `Object.prototype` (so inputs such as
`constructor` or `__proto__` hit a truthy inherited value, not the
not-found branch), and the string normalization with the ASCII fragment of
JavaScript's `toLowerCase` / `trim` (all command names and the inputs of
interest are ASCII).
-/

namespace Portfolio

/-- The characters removed by JavaScript's `String.prototype.trim`
(the common ASCII whitespace plus NBSP, line/paragraph separators and BOM). -/
def jsWhitespace (c : Char) : Bool :=
  c == ' ' || c == '\t' || c == '\n' || c == '\r' || c == '\x0b' ||
  c == '\x0c' || c == ' ' || c == ' ' || c == ' ' || c == '﻿'

/-- JavaScript `toLowerCase`, on the basic-latin fragment (`Char.toLower`
only maps `A`-`Z`; every string appearing in the terminal is ASCII). -/
def jsToLower (s : String) : String := ⟨s.data.map Char.toLower⟩

/-- JavaScript `toUpperCase`, on the basic-latin fragment. -/
def jsToUpper (s : String) : String := ⟨s.data.map Char.toUpper⟩

/-- Remove leading and trailing whitespace from a character list. -/
def jsTrimList (l : List Char) : List Char :=
  ((l.dropWhile jsWhitespace).reverse.dropWhile jsWhitespace).reverse

/-- JavaScript `String.prototype.trim`. -/
def jsTrim (s : String) : String := ⟨jsTrimList s.data⟩

/-- The normalization the keydown handler applies before dispatching:
`terminalInput.value.toLowerCase().trim()`. -/
def normalize (s : String) : String := jsTrim (jsToLower s)

/-- JavaScript truthiness of a string value: only `""` is falsy. -/
def jsTruthy (s : String) : Bool := s ≠ ""

/-- The `commands` object literal of the terminal script: a static mapping
from command name to response text. -/
def commands : List (String × String) :=
  [("help", "Available commands: help, clear, whoami, ls, projects, skills, contact, social"),
   ("whoami", "Aryan Yadav - CS Student, Web Developer, and Cybersecurity Enthusiast."),
   ("ls", "about.txt  projects/  skills/  certifications/"),
   ("projects", "Featured: Property Shodh, Virtual Office. Type \"ls projects\" for details."),
   ("skills", "Languages: Python, JS, TS, Java, C++. Frontend: React, Next.js. Backend: Node.js, Express."),
   ("contact", "Email: aryan.yadav.prof@gmail.com"),
   ("social", "GitHub: github.com/Aryan20051  |  LinkedIn: linkedin.com/in/aryan-yadav01")]

/-- An entry of the rendered transcript (`#terminal-history`): either the
echoed history line holding the dispatched command text, or an output line
holding a response text. -/
inductive Entry where
  | echo (cmd : String)
  | output (text : String)
deriving DecidableEq, Repr

/-- Text content of an echoed history line.  The source renders
`<span>aryan@dev</span><span>:~$</span> <span>${cmd}</span>`, whose visible
text is the prompt `aryan@dev:~$`, a space, and the dispatched command. -/
def echoText (cmd : String) : String := "aryan@dev" ++ ":~$" ++ " " ++ cmd

/-- The "command not found" response for an unrecognized command. -/
def notFoundText (cmd : String) : String :=
  "Command not found: " ++ cmd ++ ". Type 'help' for available commands."

/-- The properties the `commands` object literal inherits from
`Object.prototype`, paired with the text that assigning the property's value
to `textContent` produces (the string coercion of the inherited function or
object; the function form follows the standardized NativeFunction shape, as
printed by the major engines).  Every inherited value is a function or an
object, hence truthy; no theorem below depends on the exact coerced text
except at the concrete input `constructor`. -/
def objectProtoProps : List (String × String) :=
  [("constructor", "function Object() \x7b [native code] \x7d"),
   ("hasOwnProperty", "function hasOwnProperty() \x7b [native code] \x7d"),
   ("isPrototypeOf", "function isPrototypeOf() \x7b [native code] \x7d"),
   ("propertyIsEnumerable", "function propertyIsEnumerable() \x7b [native code] \x7d"),
   ("toLocaleString", "function toLocaleString() \x7b [native code] \x7d"),
   ("toString", "function toString() \x7b [native code] \x7d"),
   ("valueOf", "function valueOf() \x7b [native code] \x7d"),
   ("__proto__", "[object Object]"),
   ("__defineGetter__", "function __defineGetter__() \x7b [native code] \x7d"),
   ("__defineSetter__", "function __defineSetter__() \x7b [native code] \x7d"),
   ("__lookupGetter__", "function __lookupGetter__() \x7b [native code] \x7d"),
   ("__lookupSetter__", "function __lookupSetter__() \x7b [native code] \x7d")]

/-- The JS property access `commands[cmd]`: own properties of the object
literal first, then the prototype chain — the properties inherited from
`Object.prototype` (the literal's prototype).  Values are modelled by their
`textContent` coercion; all of them are non-empty, matching the truthiness
of the underlying strings, functions and objects. -/
def jsGet (cmd : String) : Option String :=
  match commands.lookup cmd with
  | some v => some v
  | none => objectProtoProps.lookup cmd

/-- `executeCommand` of the terminal script, acting on the transcript.
It first appends the echoed history line, then: returns on empty input,
erases the whole transcript (`terminalHistory.innerHTML = ''`) on `clear`,
and otherwise appends one output line — the looked-up value when
`commands[cmd]` is truthy (a table entry, or a property inherited from
`Object.prototype`), the not-found message otherwise.
(The final `scrollTop` assignment touches only the presentation layer.) -/
def executeCommand (cmd : String) (history : List Entry) : List Entry :=
  let history1 := history ++ [Entry.echo cmd]
  if cmd = "" then history1
  else if cmd = "clear" then []
  else
    let outText :=
      match jsGet cmd with
      | some v => if jsTruthy v then v else notFoundText cmd
      | none => notFoundText cmd
    history1 ++ [Entry.output outText]

/-- The public `execute` contract: the keydown handler normalizes the raw
input before calling `executeCommand`. -/
def execute (raw : String) (history : List Entry) : List Entry :=
  executeCommand (normalize raw) history

/-- Run a sequence of submissions starting from a given transcript. -/
def runCommands (cmds : List String) (history : List Entry) : List Entry :=
  cmds.foldl (fun h c => execute c h) history

/-- The observable state owned by the terminal widget: the input field's
value, the transcript, and whether the input field holds focus (toggled only
by the click handler). -/
structure TerminalState where
  inputValue : String
  history : List Entry
  focused : Bool
deriving DecidableEq, Repr

/-- The Enter branch of the keydown listener: normalize the typed value,
dispatch it, then clear the input field. -/
def handleEnter (st : TerminalState) : TerminalState :=
  let input := normalize st.inputValue
  { st with history := executeCommand input st.history, inputValue := "" }

/-- Transcript well-formedness, tracked with a flag saying whether an output
entry may appear next (true exactly when the previous entry is an echo):
no output entry opens the transcript or follows another output entry. -/
def wfFlag : Bool → List Entry → Bool
  | _, [] => true
  | _, Entry.echo _ :: rest => wfFlag true rest
  | b, Entry.output _ :: rest => b && wfFlag false rest

/-- A transcript is well formed when every output entry immediately follows
an echo entry (hence each echo is followed by at most one output). -/
def wf (l : List Entry) : Bool := wfFlag false l

/-- Split a character list at every occurrence of the separator character
(the accumulator holds the current chunk, reversed). -/
def splitOnChar (sep : Char) : List Char → List Char → List (List Char)
  | [], acc => [acc.reverse]
  | c :: rest, acc =>
    if c == sep then acc.reverse :: splitOnChar sep rest []
    else splitOnChar sep rest (c :: acc)

/-- The command names advertised by the `help` response: the comma-separated
names after the 20-character `Available commands: ` label, with surrounding
whitespace trimmed. -/
def advertisedCommands : List String :=
  (splitOnChar ',' (((commands.lookup "help").getD "").data.drop 20) []).map
    (fun w => (⟨jsTrimList w⟩ : String))

/-! ### Computation lemmas for `executeCommand` -/

theorem executeCommand_empty (h : List Entry) :
    executeCommand "" h = h ++ [Entry.echo ""] := rfl

theorem executeCommand_clear (h : List Entry) :
    executeCommand "clear" h = [] := rfl

theorem jsGet_own {cmd v : String} (h : commands.lookup cmd = some v) :
    jsGet cmd = some v := by
  unfold jsGet
  rw [h]

theorem executeCommand_hit (cmd v : String) (h : List Entry)
    (h1 : cmd ≠ "") (h2 : cmd ≠ "clear")
    (h3 : jsGet cmd = some v) (h4 : jsTruthy v = true) :
    executeCommand cmd h = h ++ [Entry.echo cmd, Entry.output v] := by
  simp only [executeCommand, h3]
  rw [if_neg h1, if_neg h2, if_pos h4, List.append_assoc]
  rfl

theorem executeCommand_miss (cmd : String) (h : List Entry)
    (h1 : cmd ≠ "") (h2 : cmd ≠ "clear")
    (h3 : jsGet cmd = none) :
    executeCommand cmd h = h ++ [Entry.echo cmd, Entry.output (notFoundText cmd)] := by
  simp only [executeCommand, h3]
  rw [if_neg h1, if_neg h2, List.append_assoc]
  rfl

theorem lookup_mem : ∀ {l : List (String × String)} {c v : String},
    l.lookup c = some v → (c, v) ∈ l := by
  intro l
  induction l with
  | nil => intro c v h; simp [List.lookup] at h
  | cons kv tl ih =>
    intro c v h
    obtain ⟨k, b⟩ := kv
    rw [List.lookup] at h
    split at h
    · next heq =>
      have hck : c = k := by simpa using heq
      have hbv : b = v := by simpa using h
      subst hck; subst hbv
      exact List.mem_cons_self _ _
    · exact List.mem_cons_of_mem _ (ih h)

theorem execute_key (c v : String) (h : List Entry) (hn : normalize c = c)
    (h1 : c ≠ "") (h2 : c ≠ "clear")
    (h3 : commands.lookup c = some v) (h4 : jsTruthy v = true) :
    execute c h = h ++ [Entry.echo c, Entry.output v] := by
  unfold execute
  rw [hn]
  exact executeCommand_hit c v h h1 h2 (jsGet_own h3) h4

/-! ### Claim theorems -/

/-- C1: for every command name `c` that is a key of the command table,
`execute c` appends exactly one output entry whose text equals the table's
value for `c`, placed immediately after an echo entry containing `c`. -/
theorem commandHit_appends_output (c v : String)
    (hcv : commands.lookup c = some v) (h : List Entry) :
    execute c h = h ++ [Entry.echo c, Entry.output v] := by
  have hmem := lookup_mem hcv
  simp only [commands, List.mem_cons, List.not_mem_nil, or_false] at hmem
  rcases hmem with h1 | h1 | h1 | h1 | h1 | h1 | h1 <;>
    (injection h1 with hc hv; subst hc; subst hv;
     exact execute_key _ _ h (by decide) (by decide) (by decide) (by decide) (by decide))

theorem commandHit_appends_output_witness :
    commands.lookup "whoami" =
      some "Aryan Yadav - CS Student, Web Developer, and Cybersecurity Enthusiast." ∧
    execute "whoami" [] =
      [] ++ [Entry.echo "whoami",
             Entry.output "Aryan Yadav - CS Student, Web Developer, and Cybersecurity Enthusiast."] :=
  ⟨by decide, commandHit_appends_output "whoami" _ (by decide) []⟩

/-- C2 counterexample: the raw strings `"HELP"` and `"constructor"` are not
keys of the command table, are not `"clear"`, and are not empty after
trimming, yet `execute` appends neither's `Command not found` message:
lookup happens after lowercasing, so `"HELP"` hits the `help` table entry,
and `"constructor"` (like `"__proto__"`) hits a property the object literal
inherits from `Object.prototype`, whose stringified value is output. -/
theorem notFound_raw_counterexample :
    (commands.lookup "HELP" = none ∧ ¬ "HELP" = "clear" ∧ ¬ jsTrim "HELP" = "" ∧
     execute "HELP" [] =
       [Entry.echo "help",
        Entry.output "Available commands: help, clear, whoami, ls, projects, skills, contact, social"] ∧
     ¬ Entry.output (notFoundText (normalize "HELP")) ∈ execute "HELP" []) ∧
    (commands.lookup "constructor" = none ∧ ¬ "constructor" = "clear" ∧
     ¬ jsTrim "constructor" = "" ∧
     execute "constructor" [] =
       [Entry.echo "constructor",
        Entry.output "function Object() \x7b [native code] \x7d"] ∧
     ¬ Entry.output (notFoundText (normalize "constructor")) ∈ execute "constructor" []) ∧
    (commands.lookup "__proto__" = none ∧
     execute "__proto__" [] =
       [Entry.echo "__proto__", Entry.output "[object Object]"]) := by
  decide

/-- C2 (amended): for every string whose normalized form is neither an own
key of the command table nor a property name inherited from
`Object.prototype`, not `"clear"`, and not empty, `execute` appends exactly
one output entry, the `Command not found` message for the normalized input;
that text contains the normalized input and the word `help`. -/
theorem notFound_appends_message (s : String) (h : List Entry)
    (h1 : jsGet (normalize s) = none)
    (h2 : normalize s ≠ "clear") (h3 : normalize s ≠ "") :
    execute s h =
      h ++ [Entry.echo (normalize s), Entry.output (notFoundText (normalize s))] ∧
    (∃ pre post, notFoundText (normalize s) = pre ++ (normalize s ++ post)) ∧
    (∃ pre post, notFoundText (normalize s) = pre ++ ("help" ++ post)) := by
  refine ⟨executeCommand_miss _ h h3 h2 h1, ?_, ?_⟩
  · exact ⟨"Command not found: ", ". Type 'help' for available commands.",
      String.append_assoc _ _ _⟩
  · refine ⟨("Command not found: " ++ normalize s) ++ ". Type '",
      "' for available commands.", ?_⟩
    rw [String.append_assoc]
    congr 1

theorem notFound_appends_message_witness :
    (execute "foo" [] =
      [] ++ [Entry.echo (normalize "foo"), Entry.output (notFoundText (normalize "foo"))] ∧
    (∃ pre post, notFoundText (normalize "foo") = pre ++ (normalize "foo" ++ post)) ∧
    (∃ pre post, notFoundText (normalize "foo") = pre ++ ("help" ++ post))) :=
  notFound_appends_message "foo" [] (by decide) (by decide) (by decide)

/-- C3: `execute "clear"` resets the transcript to length zero regardless of
its prior contents, and produces no output entry. -/
theorem clear_resets_transcript (h : List Entry) : execute "clear" h = [] := by
  unfold execute
  rw [show normalize "clear" = "clear" from by decide]
  exact executeCommand_clear h

/-- C4 counterexample: submitting `"   "` (normalized form empty) does
append a transcript entry — the echo line with empty command text — so the
transcript is not left unchanged. -/
theorem empty_input_echo_counterexample :
    normalize "" = "" ∧ normalize "   " = "" ∧
    execute "" [] = [Entry.echo ""] ∧ execute "   " [] = [Entry.echo ""] ∧
    ¬ execute "   " [] = [] := by
  decide

/-- C4 (amended): for every raw input whose normalized form is the empty
string, `execute` appends exactly one entry — an echo entry with empty
command text — and no output entry. -/
theorem empty_input_appends_echo_only (raw : String) (h : List Entry)
    (hn : normalize raw = "") :
    execute raw h = h ++ [Entry.echo ""] := by
  unfold execute
  rw [hn]
  exact executeCommand_empty h

theorem empty_input_appends_echo_only_witness :
    execute "   " [] = [] ++ [Entry.echo ""] :=
  empty_input_appends_echo_only "   " [] (by decide)

/-- C7: starting from the empty transcript, the sequence
`["help", "ls", "clear", "whoami"]` leaves exactly the echo of `whoami`
followed by the table's `whoami` response, all earlier entries removed. -/
theorem scenario_help_ls_clear_whoami :
    runCommands ["help", "ls", "clear", "whoami"] [] =
      [Entry.echo "whoami",
       Entry.output "Aryan Yadav - CS Student, Web Developer, and Cybersecurity Enthusiast."] := by
  decide

/-- C9: every Enter submission resets the input field to the empty string —
whatever the typed value was — and modifies nothing besides the transcript
and the input field (the focus flag is untouched). -/
theorem enter_resets_input_frame (st : TerminalState) :
    (handleEnter st).inputValue = "" ∧
    (handleEnter st).focused = st.focused ∧
    (handleEnter st).history = executeCommand (normalize st.inputValue) st.history :=
  ⟨rfl, rfl, rfl⟩

/-- C10: the command names advertised by the `help` response are exactly the
keys of the command table together with `clear`. -/
theorem help_advertises_table_keys (n : String) :
    n ∈ advertisedCommands ↔ (n ∈ commands.map Prod.fst ∨ n = "clear") := by
  have h1 : advertisedCommands =
      ["help", "clear", "whoami", "ls", "projects", "skills", "contact", "social"] := by
    decide
  have h2 : commands.map Prod.fst =
      ["help", "whoami", "ls", "projects", "skills", "contact", "social"] := by
    decide
  rw [h1, h2]
  simp only [List.mem_cons, List.not_mem_nil, or_false]
  tauto

/-! ### Transcript well-formedness (claim C6) -/

theorem wfFlag_append_echo (c : String) : ∀ (h : List Entry) (b : Bool),
    wfFlag b h = true → wfFlag b (h ++ [Entry.echo c]) = true := by
  intro h
  induction h with
  | nil => intro b _; rfl
  | cons e tl ih =>
    intro b hw
    cases e with
    | echo d => exact ih true hw
    | output t =>
      simp only [wfFlag, Bool.and_eq_true] at hw ⊢
      exact ⟨hw.1, ih false hw.2⟩

theorem wfFlag_append_echo_output (c t : String) : ∀ (h : List Entry) (b : Bool),
    wfFlag b h = true → wfFlag b (h ++ [Entry.echo c, Entry.output t]) = true := by
  intro h
  induction h with
  | nil => intro b _; rfl
  | cons e tl ih =>
    intro b hw
    cases e with
    | echo d => exact ih true hw
    | output u =>
      simp only [wfFlag, Bool.and_eq_true] at hw ⊢
      exact ⟨hw.1, ih false hw.2⟩

theorem executeCommand_wf (cmd : String) (h : List Entry) (hw : wf h = true) :
    wf (executeCommand cmd h) = true := by
  simp only [executeCommand]
  by_cases h1 : cmd = ""
  · rw [if_pos h1]
    exact wfFlag_append_echo cmd h false hw
  · rw [if_neg h1]
    by_cases h2 : cmd = "clear"
    · rw [if_pos h2]; rfl
    · rw [if_neg h2, List.append_assoc]
      exact wfFlag_append_echo_output cmd _ h false hw

theorem execute_extends_or_clears (c : String) (h : List Entry) :
    (∃ tail, execute c h = h ++ tail) ∨ execute c h = [] := by
  unfold execute
  simp only [executeCommand]
  by_cases h1 : normalize c = ""
  · exact Or.inl ⟨[Entry.echo (normalize c)], by rw [if_pos h1]⟩
  · by_cases h2 : normalize c = "clear"
    · exact Or.inr (by rw [if_neg h1, if_pos h2])
    · exact Or.inl ⟨[Entry.echo (normalize c), Entry.output _],
        by rw [if_neg h1, if_neg h2, List.append_assoc]; rfl⟩

theorem runCommands_wf : ∀ (cmds : List String) (h : List Entry),
    wf h = true → wf (runCommands cmds h) = true := by
  intro cmds
  induction cmds with
  | nil => intro h hw; exact hw
  | cons c cs ih =>
    intro h hw
    exact ih (execute c h) (executeCommand_wf (normalize c) h hw)

/-- C6: in every transcript reachable from the empty one by `execute`
calls, each output entry immediately follows an echo entry (so each echo is
followed by at most one output entry); moreover every `execute` step either
appends entries at the end, leaving the prior sequence intact, or — for
`clear` — resets the sequence to empty. -/
theorem transcript_wellformed_appendOnly (cmds : List String) :
    wf (runCommands cmds []) = true ∧
    ∀ (c : String) (h : List Entry),
      (∃ tail, execute c h = h ++ tail) ∨ execute c h = [] :=
  ⟨runCommands_wf cmds [] rfl, execute_extends_or_clears⟩

/-! ### Echo rendering (claim C8) -/

theorem echoText_eq (cmd : String) : echoText cmd = "aryan@dev:~$ " ++ cmd := rfl

/-- C8 counterexample: submitting the typed value `"WHOAMI"` appends an
echo entry rendering the prompt followed by the normalized text `whoami`,
not the literal text as the user typed it. -/
theorem echo_literal_counterexample :
    (handleEnter { inputValue := "WHOAMI", history := [], focused := true }).history =
      [Entry.echo "whoami",
       Entry.output "Aryan Yadav - CS Student, Web Developer, and Cybersecurity Enthusiast."] ∧
    echoText "whoami" = "aryan@dev:~$ " ++ "whoami" ∧
    ¬ echoText "whoami" = "aryan@dev:~$ " ++ "WHOAMI" ∧
    ¬ Entry.echo "WHOAMI" ∈
      (handleEnter { inputValue := "WHOAMI", history := [], focused := true }).history := by
  decide

/-- C8 (amended): for every submitted raw input, the echo entry appended to
the transcript renders the fixed `aryan@dev:~$` prompt followed by the
normalized (lowercased, trimmed) command text; for `clear` the echo is
appended and then the whole transcript is wiped. -/
theorem echo_prompt_normalized (raw : String) (h : List Entry) :
    (∃ rest, execute raw h = (h ++ [Entry.echo (normalize raw)]) ++ rest ∧
       echoText (normalize raw) = "aryan@dev:~$ " ++ normalize raw) ∨
    (normalize raw = "clear" ∧ execute raw h = []) := by
  unfold execute
  simp only [executeCommand]
  by_cases h1 : normalize raw = ""
  · exact Or.inl ⟨[], by rw [if_pos h1, List.append_nil], echoText_eq _⟩
  · by_cases h2 : normalize raw = "clear"
    · exact Or.inr ⟨h2, by rw [if_neg h1, if_pos h2]⟩
    · exact Or.inl ⟨[Entry.output _], by rw [if_neg h1, if_neg h2], echoText_eq _⟩

/-! ### Normalization algebra (claim C5) -/

theorem char_toNat_ofNat {n : Nat} (h : n.isValidChar) : (Char.ofNat n).toNat = n := by
  unfold Char.ofNat
  rw [dif_pos h]
  rfl

theorem char_toLower_toUpper (c : Char) : c.toUpper.toLower = c.toLower := by
  simp only [Char.toUpper, Char.toLower]
  by_cases hc : c.toNat ≥ 97 ∧ c.toNat ≤ 122
  · rw [if_pos hc]
    have hv : Nat.isValidChar (c.toNat - 32) := Or.inl (by omega)
    rw [char_toNat_ofNat hv]
    rw [if_pos (show c.toNat - 32 ≥ 65 ∧ c.toNat - 32 ≤ 90 by omega)]
    rw [if_neg (show ¬(c.toNat ≥ 65 ∧ c.toNat ≤ 90) by omega)]
    rw [show c.toNat - 32 + 32 = c.toNat by omega, Char.ofNat_toNat]
  · rw [if_neg hc]

theorem char_toLower_idem (c : Char) : c.toLower.toLower = c.toLower := by
  simp only [Char.toLower]
  by_cases hc : c.toNat ≥ 65 ∧ c.toNat ≤ 90
  · rw [if_pos hc]
    have hv : Nat.isValidChar (c.toNat + 32) := Or.inl (by omega)
    rw [char_toNat_ofNat hv]
    rw [if_neg (show ¬(c.toNat + 32 ≥ 65 ∧ c.toNat + 32 ≤ 90) by omega)]
  · rw [if_neg hc, if_neg hc]

theorem char_toLower_of_ws {c : Char} (h : jsWhitespace c = true) :
    Char.toLower c = c := by
  simp only [jsWhitespace, Bool.or_eq_true, beq_iff_eq, or_assoc] at h
  rcases h with rfl | rfl | rfl | rfl | rfl | rfl | rfl | rfl | rfl | rfl <;> decide

theorem map_toLower_of_ws {l : List Char} (h : ∀ c ∈ l, jsWhitespace c = true) :
    l.map Char.toLower = l := by
  have hfix : ∀ c ∈ l, Char.toLower c = id c := fun c hc => char_toLower_of_ws (h c hc)
  rw [List.map_congr_left hfix, List.map_id]

theorem ws_of_map_toLower {l : List Char} (h : ∀ c ∈ l, jsWhitespace c = true) :
    ∀ c ∈ l.map Char.toLower, jsWhitespace c = true := by
  rw [map_toLower_of_ws h]
  exact h

theorem trimList_append_ws (w1 w2 m : List Char)
    (h1 : ∀ c ∈ w1, jsWhitespace c = true) (h2 : ∀ c ∈ w2, jsWhitespace c = true) :
    jsTrimList (w1 ++ (m ++ w2)) = jsTrimList m := by
  unfold jsTrimList
  rw [List.dropWhile_append_of_pos h1, List.dropWhile_append]
  split
  · next he =>
    have hm : m.dropWhile jsWhitespace = [] := by simpa using he
    have hw2 : w2.dropWhile jsWhitespace = [] := List.dropWhile_eq_nil_iff.mpr h2
    rw [hm, hw2]
  · rw [List.reverse_append,
      List.dropWhile_append_of_pos (fun a ha => h2 a (List.mem_reverse.mp ha))]

theorem trim_decompose (l : List Char) :
    ∃ w1 w2, (∀ c ∈ w1, jsWhitespace c = true) ∧ (∀ c ∈ w2, jsWhitespace c = true) ∧
      l = w1 ++ (jsTrimList l ++ w2) := by
  refine ⟨l.takeWhile jsWhitespace,
    ((l.dropWhile jsWhitespace).reverse.takeWhile jsWhitespace).reverse,
    fun c hc => List.mem_takeWhile_imp hc,
    fun c hc => List.mem_takeWhile_imp (List.mem_reverse.mp hc), ?_⟩
  conv_lhs => rw [← List.takeWhile_append_dropWhile jsWhitespace l]
  congr 1
  conv_lhs => rw [← List.reverse_reverse (l.dropWhile jsWhitespace),
    ← List.takeWhile_append_dropWhile jsWhitespace (l.dropWhile jsWhitespace).reverse,
    List.reverse_append]
  rfl

theorem trimList_idem (l : List Char) : jsTrimList (jsTrimList l) = jsTrimList l := by
  obtain ⟨w1, w2, h1, h2, hl⟩ := trim_decompose l
  have h := trimList_append_ws w1 w2 (jsTrimList l) h1 h2
  rw [← hl] at h
  exact h.symm

theorem mem_trimList {c : Char} {l : List Char} (h : c ∈ jsTrimList l) : c ∈ l := by
  unfold jsTrimList at h
  rw [List.mem_reverse] at h
  have h' := List.dropWhile_subset _ h
  rw [List.mem_reverse] at h'
  exact List.dropWhile_subset _ h'

theorem normalize_toUpper (s : String) : normalize (jsToUpper s) = normalize s := by
  show String.mk (jsTrimList ((s.data.map Char.toUpper).map Char.toLower)) =
       String.mk (jsTrimList (s.data.map Char.toLower))
  congr 1
  rw [List.map_map]
  exact congrArg jsTrimList (List.map_congr_left (fun c _ => char_toLower_toUpper c))

theorem normalize_pad (ws1 s ws2 : String)
    (h1 : ∀ c ∈ ws1.data, jsWhitespace c = true)
    (h2 : ∀ c ∈ ws2.data, jsWhitespace c = true) :
    normalize (ws1 ++ s ++ ws2) = normalize s := by
  show String.mk (jsTrimList (((ws1.data ++ s.data) ++ ws2.data).map Char.toLower)) =
       String.mk (jsTrimList (s.data.map Char.toLower))
  congr 1
  rw [List.map_append, List.map_append, map_toLower_of_ws h1, map_toLower_of_ws h2,
    List.append_assoc]
  exact trimList_append_ws _ _ _ h1 h2

theorem normalize_idem (s : String) : normalize (normalize s) = normalize s := by
  show String.mk (jsTrimList ((jsTrimList (s.data.map Char.toLower)).map Char.toLower)) =
       String.mk (jsTrimList (s.data.map Char.toLower))
  congr 1
  have hmap : (jsTrimList (s.data.map Char.toLower)).map Char.toLower =
      jsTrimList (s.data.map Char.toLower) := by
    have hfix : ∀ c ∈ jsTrimList (s.data.map Char.toLower), Char.toLower c = id c := by
      intro c hc
      obtain ⟨a, _, rfl⟩ := List.mem_map.mp (mem_trimList hc)
      exact char_toLower_idem a
    rw [List.map_congr_left hfix, List.map_id]
  rw [hmap, trimList_idem]

/-- C5: command matching is case-insensitive and whitespace-insensitive at
the edges: uppercasing the input, surrounding it with whitespace, or
pre-normalizing it leaves the effect of `execute` — echo entry and output
entry alike — unchanged; in particular `execute "WHOAMI"` produces the same
entries as `execute "whoami"`. -/
theorem matching_case_whitespace_insensitive (s ws1 ws2 : String) (st : List Entry)
    (h1 : ∀ c ∈ ws1.data, jsWhitespace c = true)
    (h2 : ∀ c ∈ ws2.data, jsWhitespace c = true) :
    execute (jsToUpper s) st = execute s st ∧
    execute (ws1 ++ s ++ ws2) st = execute s st ∧
    execute (normalize s) st = execute s st ∧
    execute "WHOAMI" st = execute "whoami" st := by
  refine ⟨?_, ?_, ?_, ?_⟩ <;> unfold execute
  · rw [normalize_toUpper]
  · rw [normalize_pad ws1 s ws2 h1 h2]
  · rw [normalize_idem]
  · rw [show normalize "WHOAMI" = normalize "whoami" from by decide]

theorem matching_case_whitespace_insensitive_witness :
    execute (jsToUpper "whoami") [] = execute "whoami" [] ∧
    execute (" " ++ "whoami" ++ "  ") [] = execute "whoami" [] ∧
    execute (normalize "whoami") [] = execute "whoami" [] ∧
    execute "WHOAMI" [] = execute "whoami" [] :=
  matching_case_whitespace_insensitive "whoami" " " "  " [] (by decide) (by decide)

end Portfolio
